import Mathlib

/-!
This file is a shallow embedding, in Lean 4, of the contig-assembly pipeline
implemented in `project3_assembly.py`, together with theorems checking the
natural-language specification of that program against the code.

Modelling conventions:
* A Python string is a `List Char`.
* A Python `dict` is an association list `List (key × value)` whose entries
  appear in insertion order (Python dicts preserve insertion order); the
  pipeline only ever inserts fresh keys or updates existing ones in place,
  which the association-list operations below reproduce.
* A Python `set` is a duplicate-free `List` used only through membership.
* The integer parameter `k` is an `Int`, because the program's behaviour for
  `k ≤ 0` (Python `range` and slice semantics) is the subject of one claim.
* `simple_path`'s inner recursion is modelled with an explicit fuel
  parameter; the driver supplies fuel exceeding the recursion depth that the
  Python program can reach (each nested call permanently consumes at least
  one unvisited node, so the depth is bounded by the number of nodes).
-/

namespace Assembly

/-- A k-mer / nucleotide string, modelling a Python `str`. -/
abbrev Kmer := List Char

/-- `KmerCounts`: the dict from k-mer to occurrence count, in insertion order. -/
abbrev KmerCounts := List (Kmer × Nat)

/-- Normalisation of one Python slice index against a string of length `n`:
negative indices count from the end, and the result is clamped into `[0, n]`. -/
def pySliceIdx (n : Nat) (i : Int) : Nat :=
  if i < 0 then (max (i + n) 0).toNat else min i.toNat n

/-- Python slice `s[a:b]` (step 1): take the characters from the normalised
start (inclusive) to the normalised stop (exclusive); empty when start ≥ stop. -/
def pySlice (s : List Char) (a b : Int) : List Char :=
  (s.take (pySliceIdx s.length b)).drop (pySliceIdx s.length a)

/-- The regex check `re.match('^[ACGT]+$', sequence)` from `index_kmers`.
Python's `$` matches at the end of the string *or just before a newline that
is its last character*, so the match succeeds exactly on a nonempty run of
A, C, G, T spanning the whole string, optionally followed by one final
newline character. -/
def validSeq (s : List Char) : Bool :=
  let core := if s.getLastD ' ' == '\n' then s.dropLast else s
  !core.isEmpty && core.all (fun c => c == 'A' || c == 'C' || c == 'G' || c == 'T')

/-- `kmers[kmer] += 1` / `kmers[kmer] = 1` on the dict: increment in place if
the key is present (the position of the entry does not change), otherwise
append the key with count 1 at the end (Python dicts append fresh keys). -/
def addKmer (kmers : KmerCounts) (kmer : Kmer) : KmerCounts :=
  if kmers.any (fun p => p.1 == kmer) then
    kmers.map (fun p => if p.1 == kmer then (p.1, p.2 + 1) else p)
  else
    kmers ++ [(kmer, 1)]

/-- The inner loop of `index_kmers` over one sequence:
`for i in range(len(sequence) - k + 1): kmer = sequence[i:i+k]; count it`. -/
def indexSeq (kmers : KmerCounts) (s : List Char) (k : Int) : KmerCounts :=
  (List.range (Int.toNat ((s.length : Int) - k + 1))).foldl
    (fun acc (i : Nat) => addKmer acc (pySlice s (i : Int) ((i : Int) + k))) kmers

/-- `index_kmers(sequences, k)`: skip any sequence not matching `^[ACGT]+$`,
otherwise count every length-`k` window. -/
def index_kmers (sequences : List (List Char)) (k : Int) : KmerCounts :=
  sequences.foldl (fun acc s => if validSeq s then indexSeq acc s k else acc) []

/-- `filter_kmers(kmers, threshold)`: keep, in order, exactly the entries whose
count is at least the threshold. (On a dict — unique keys — the Python loop
that re-inserts the surviving entries is exactly this filter.)  Counts are
occurrence counts, but the threshold arrives from the CLI as an arbitrary
Python int, so the comparison `abundance >= threshold` is over ℤ. -/
def filter_kmers (kmers : KmerCounts) (threshold : Int) : KmerCounts :=
  kmers.filter (fun p => threshold ≤ (p.2 : Int))

/-- The total number of window positions `index_kmers` visits with `k = 0`:
each sequence accepted by the regex check contributes `len(sequence) + 1`
positions (`range(len - 0 + 1)`). -/
def zeroWindows (sequences : List (List Char)) : Nat :=
  (sequences.map (fun s => if validSeq s then s.length + 1 else 0)).sum

/-- The value type of `predecessors_and_successors`'s result dict:
`{"successors": [...], "predecessors": [...]}`. -/
structure AdjEntry where
  successors : List Kmer
  predecessors : List Kmer
deriving DecidableEq

/-- The adjacency dict produced by `predecessors_and_successors`. -/
abbrev Index := List (Kmer × AdjEntry)

/-- `i in filtered_kmers.keys()`. -/
def hasKey (m : KmerCounts) (key : Kmer) : Bool :=
  m.any (fun p => p.1 == key)

/-- The successor candidate list for `w`:
`kmer = w[1:]; [kmer+'A', kmer+'C', kmer+'G', kmer+'T']`. -/
def succCandidates (w : Kmer) : List Kmer :=
  [w.drop 1 ++ ['A'], w.drop 1 ++ ['C'], w.drop 1 ++ ['G'], w.drop 1 ++ ['T']]

/-- The predecessor candidate list for `w`:
`kmer = w[:-1]; ['A'+kmer, 'C'+kmer, 'G'+kmer, 'T'+kmer]`. -/
def predCandidates (w : Kmer) : List Kmer :=
  ['A' :: w.dropLast, 'C' :: w.dropLast, 'G' :: w.dropLast, 'T' :: w.dropLast]

/-- `predecessors_and_successors(filtered_kmers)`: for each key `w`, in the
dict's iteration order, keep the candidates present among the keys.  The
Python loop assigns `index[w] = {...}` for each key of a dict (keys unique),
which builds exactly this map in the same order. -/
def predecessors_and_successors (filtered_kmers : KmerCounts) : Index :=
  filtered_kmers.map (fun p =>
    (p.1, { successors := (succCandidates p.1).filter (fun i => hasKey filtered_kmers i)
            predecessors := (predCandidates p.1).filter (fun i => hasKey filtered_kmers i) }))

/-! ### The traversal state of `simple_path` -/

/-- The shared mutable state of one `simple_path` run: the memo `contig_dict`
(a dict from k-mer to contig) and the `visited` set (modelled as a
duplicate-free list, used only through membership). -/
structure TState where
  contigDict : List (Kmer × List Char)
  visited : List Kmer
deriving DecidableEq

/-- `index[w]` in `simple_path`.  Python would raise `KeyError` on a missing
key; every access the program performs is on a key of `index`, so the default
entry only makes the model total. -/
def lookupAdj (idx : Index) (w : Kmer) : AdjEntry :=
  match idx.find? (fun p => p.1 == w) with
  | some p => p.2
  | none => { successors := [], predecessors := [] }

/-- `visited.add(w)` on the set-as-list: a no-op when already present. -/
def addVisited (visited : List Kmer) (w : Kmer) : List Kmer :=
  if w ∈ visited then visited else visited ++ [w]

/-- `contig_dict[w] = contig`: update in place when the key exists, append
otherwise. -/
def dictSet (d : List (Kmer × List Char)) (key : Kmer) (val : List Char) :
    List (Kmer × List Char) :=
  if d.any (fun p => p.1 == key) then
    d.map (fun p => if p.1 == key then (key, val) else p)
  else
    d ++ [(key, val)]

/-- The forward extension loop of `build_contig`:
`while len(successor) == 1 and successor[0] not in visited:` append the
successor's last character (`successor[0][-1]`), mark it visited, and move to
its successor list.  The loop only reads and writes `visited`, `contig` and
`successor`; fuel bounds the iteration count (the Python loop adds one fresh
element to `visited` per iteration, so it performs at most `idx.length + 1`
iterations, and the callers pass more fuel than that). -/
def forwardLoop (idx : Index) :
    Nat → List Kmer → List Char → List Kmer → List Kmer × List Char × List Kmer
  | 0, visited, contig, successor => (visited, contig, successor)
  | fuel + 1, visited, contig, successor =>
    match successor with
    | [s] =>
      if s ∈ visited then (visited, contig, [s])
      else forwardLoop idx fuel (addVisited visited s) (contig ++ [s.getLastD 'N'])
        (lookupAdj idx s).successors
    | _ => (visited, contig, successor)

/-- The backward extension loop of `build_contig`:
`while len(pre) == 1 and pre[0] not in visited:` prepend the predecessor's
first character (`pre[0][0]`), mark it visited, and move to its predecessor
list. -/
def backwardLoop (idx : Index) :
    Nat → List Kmer → List Char → List Kmer → List Kmer × List Char × List Kmer
  | 0, visited, contig, pre => (visited, contig, pre)
  | fuel + 1, visited, contig, pre =>
    match pre with
    | [p] =>
      if p ∈ visited then (visited, contig, [p])
      else backwardLoop idx fuel (addVisited visited p) (p.headD 'N' :: contig)
        (lookupAdj idx p).predecessors
    | _ => (visited, contig, pre)

/-- The body of the forward branch-resolution `for` loop of `build_contig`:
`for s in successor: if s not in visited: new = build_contig(s);`
`if len(new) > len(best_contig): best_contig = new`.  The recursive call is
passed in as `build`; `best` is the running `best_contig`. -/
def fwdLoopResolve (build : TState → Kmer → TState × List Char) :
    TState → List Char → List Kmer → TState × List Char
  | st, best, [] => (st, best)
  | st, best, s :: rest =>
    if s ∈ st.visited then fwdLoopResolve build st best rest
    else
      let r := build st s
      if best.length < r.2.length then fwdLoopResolve build r.1 r.2 rest
      else fwdLoopResolve build r.1 best rest

/-- Forward branch resolution (`if len(successor) > 1:` …, then
`contig = best_contig`); otherwise the state and contig are unchanged. -/
def forwardResolve (build : TState → Kmer → TState × List Char)
    (st : TState) (contig : List Char) (successor : List Kmer) : TState × List Char :=
  if 1 < successor.length then fwdLoopResolve build st contig successor
  else (st, contig)

/-- The body of the backward branch-resolution `for` loop of `build_contig`:
`for p in pre: if p not in visited: new = build_contig(p) + contig;`
`if len(new) > len(best_contig): best_contig = new`.  Note that `contig` is
the contig fixed at loop entry (the Python loop never reassigns `contig`
inside the loop, only `best_contig`). -/
def bwdLoopResolve (build : TState → Kmer → TState × List Char) (contig : List Char) :
    TState → List Char → List Kmer → TState × List Char
  | st, best, [] => (st, best)
  | st, best, p :: rest =>
    if p ∈ st.visited then bwdLoopResolve build contig st best rest
    else
      let r := build st p
      if best.length < (r.2 ++ contig).length then
        bwdLoopResolve build contig r.1 (r.2 ++ contig) rest
      else bwdLoopResolve build contig r.1 best rest

/-- Backward branch resolution (`if len(pre) > 1:` …, then
`contig = best_contig`); otherwise the state and contig are unchanged. -/
def backwardResolve (build : TState → Kmer → TState × List Char)
    (st : TState) (contig : List Char) (pre : List Kmer) : TState × List Char :=
  if 1 < pre.length then bwdLoopResolve build contig st contig pre
  else (st, contig)

/-- Everything `build_contig(w)` does after the memo check: initialise
`contig = w`, mark `w` visited, run the forward loop and forward branch
resolution, then the backward loop and backward branch resolution, store the
result in `contig_dict` and return it.  The recursive call is abstracted as
`build` so that the memoised procedure and its variants can share this body. -/
def buildBody (idx : Index) (loopFuel : Nat)
    (build : TState → Kmer → TState × List Char) (st : TState) (w : Kmer) :
    TState × List Char :=
  let fl := forwardLoop idx loopFuel (addVisited st.visited w) w (lookupAdj idx w).successors
  let fr := forwardResolve build ⟨st.contigDict, fl.1⟩ fl.2.1 fl.2.2
  let bl := backwardLoop idx loopFuel fr.1.visited fr.2 (lookupAdj idx w).predecessors
  let br := backwardResolve build ⟨fr.1.contigDict, bl.1⟩ bl.2.1 bl.2.2
  (⟨dictSet br.1.contigDict w br.2, br.1.visited⟩, br.2)

/-- `build_contig(w)`, with fuel bounding the recursion depth (every recursive
call is on a node not yet visited and every call marks its node visited before
recursing, so the depth the Python program can reach is bounded by the number
of nodes; the driver passes more fuel than that).  The first branch is the
memo check `if w in contig_dict: return contig_dict[w]`. -/
def buildContig (idx : Index) (loopFuel : Nat) : Nat → TState → Kmer → TState × List Char
  | 0, st, _ => (st, [])
  | fuel + 1, st, w =>
    match st.contigDict.find? (fun p => p.1 == w) with
    | some p => (st, p.2)
    | none => buildBody idx loopFuel (buildContig idx loopFuel fuel) st w

/-- `simple_path(index)`: starting from empty `contig_dict` and `visited`,
iterate over the keys of `index` in order, and for each key not yet visited
append `build_contig(key)`'s result to the contig list. -/
def simple_path (idx : Index) : List (List Char) :=
  (idx.foldl (fun (acc : TState × List (List Char)) p =>
      if p.1 ∈ acc.1.visited then acc
      else
        let r := buildContig idx (idx.length + 2) (idx.length + 2) acc.1 p.1
        (r.1, acc.2 ++ [r.2]))
    (⟨[], []⟩, [])).2

/-- The whole core pipeline in the order `main` composes it:
index, filter, adjacency, assembly. -/
def pipeline (sequences : List (List Char)) (k : Int) (threshold : Int) : List (List Char) :=
  simple_path (predecessors_and_successors (filter_kmers (index_kmers sequences k) threshold))

/-! ### Variants written from the spec's words, for comparison with the code -/

/-- Forward branch resolution as the spec words it: when the successor list
has more than one entry, walk the successors in order; each one that is not
yet visited at that moment is built recursively, and the running contig is
replaced wholesale by the recursive result exactly when that result is
strictly longer; otherwise everything is unchanged. -/
def forwardResolveSpec (build : TState → Kmer → TState × List Char)
    (st : TState) (contig : List Char) (successor : List Kmer) : TState × List Char :=
  if 1 < successor.length then
    successor.foldl (fun acc s =>
      if s ∈ acc.1.visited then acc
      else
        let r := build acc.1 s
        (r.1, if acc.2.length < r.2.length then r.2 else acc.2)) (st, contig)
  else (st, contig)

/-- Backward branch resolution as amended: triggered when the predecessor
list has more than one entry (visited or not); each entry that is unvisited
at its turn is built recursively, the result is prepended by concatenation to
the contig fixed at loop entry, and the running best is replaced exactly when
the combination is strictly longer. -/
def backwardResolveSpec (build : TState → Kmer → TState × List Char)
    (st : TState) (contig : List Char) (pre : List Kmer) : TState × List Char :=
  if 1 < pre.length then
    pre.foldl (fun acc p =>
      if p ∈ acc.1.visited then acc
      else
        let r := build acc.1 p
        (r.1, if acc.2.length < (r.2 ++ contig).length then r.2 ++ contig else acc.2))
      (st, contig)
  else (st, contig)

/-- Backward branch resolution as claim C3 words it: performed exactly when
the number of *unvisited* entries of the predecessor list exceeds one (the
loop itself is the one the code runs). -/
def backwardResolveClaimC3 (build : TState → Kmer → TState × List Char)
    (st : TState) (contig : List Char) (pre : List Kmer) : TState × List Char :=
  if 1 < (pre.filter (fun p => decide (p ∉ st.visited))).length then
    bwdLoopResolve build contig st contig pre
  else (st, contig)

/-- `build_contig`'s body with the backward branch condition replaced by claim
C3's condition; everything else is the code's body. -/
def buildBodyClaimC3 (idx : Index) (loopFuel : Nat)
    (build : TState → Kmer → TState × List Char) (st : TState) (w : Kmer) :
    TState × List Char :=
  let fl := forwardLoop idx loopFuel (addVisited st.visited w) w (lookupAdj idx w).successors
  let fr := forwardResolve build ⟨st.contigDict, fl.1⟩ fl.2.1 fl.2.2
  let bl := backwardLoop idx loopFuel fr.1.visited fr.2 (lookupAdj idx w).predecessors
  let br := backwardResolveClaimC3 build ⟨fr.1.contigDict, bl.1⟩ bl.2.1 bl.2.2
  (⟨dictSet br.1.contigDict w br.2, br.1.visited⟩, br.2)

/-- `build_contig` as claim C3 describes it (backward branch resolution gated
on the unvisited count). -/
def buildContigClaimC3 (idx : Index) (loopFuel : Nat) :
    Nat → TState → Kmer → TState × List Char
  | 0, st, _ => (st, [])
  | fuel + 1, st, w =>
    match st.contigDict.find? (fun p => p.1 == w) with
    | some p => (st, p.2)
    | none => buildBodyClaimC3 idx loopFuel (buildContigClaimC3 idx loopFuel fuel) st w

/-- `simple_path` driven by claim C3's variant of `build_contig`. -/
def simplePathClaimC3 (idx : Index) : List (List Char) :=
  (idx.foldl (fun (acc : TState × List (List Char)) p =>
      if p.1 ∈ acc.1.visited then acc
      else
        let r := buildContigClaimC3 idx (idx.length + 2) (idx.length + 2) acc.1 p.1
        (r.1, acc.2 ++ [r.2]))
    (⟨[], []⟩, [])).2

/-- `build_contig` with the memo-hit branch deleted, used to state that the
memo branch is dead code: the two procedures agree on every run. -/
def buildContigNoMemo (idx : Index) (loopFuel : Nat) :
    Nat → TState → Kmer → TState × List Char
  | 0, st, _ => (st, [])
  | fuel + 1, st, w => buildBody idx loopFuel (buildContigNoMemo idx loopFuel fuel) st w

/-- `simple_path` driven by the memo-free `build_contig`. -/
def simplePathNoMemo (idx : Index) : List (List Char) :=
  (idx.foldl (fun (acc : TState × List (List Char)) p =>
      if p.1 ∈ acc.1.visited then acc
      else
        let r := buildContigNoMemo idx (idx.length + 2) (idx.length + 2) acc.1 p.1
        (r.1, acc.2 ++ [r.2]))
    (⟨[], []⟩, [])).2

/-! ### Helper lemmas -/

/-- `index_kmers` unfolded to its driving fold. -/
lemma index_kmers_eq_foldl (sequences : List (List Char)) (k : Int) :
    index_kmers sequences k =
      sequences.foldl (fun acc s => if validSeq s then indexSeq acc s k else acc) [] := rfl

/-- A sequence containing a character outside A, C, G, T fails the regex
check, unless it is of the one extra shape Python's `$` accepts: a nonempty
all-ACGT body followed by a single trailing newline. -/
lemma validSeq_eq_false_of_bad {s : List Char}
    (hbad : ∃ c ∈ s, ¬(c = 'A' ∨ c = 'C' ∨ c = 'G' ∨ c = 'T'))
    (hnl : ¬(s.dropLast ≠ [] ∧
      (∀ c ∈ s.dropLast, c = 'A' ∨ c = 'C' ∨ c = 'G' ∨ c = 'T') ∧
      s.getLast? = some '\n')) :
    validSeq s = false := by
  obtain ⟨c, hc, hcbad⟩ := hbad
  cases hb : validSeq s with
  | false => rfl
  | true =>
    exfalso
    simp only [validSeq] at hb
    by_cases hlast : (s.getLastD ' ' == '\n') = true
    · rw [if_pos hlast] at hb
      have hAll : ∀ x ∈ s.dropLast, x = 'A' ∨ x = 'C' ∨ x = 'G' ∨ x = 'T' := by
        have h2 := (Bool.and_eq_true _ _ |>.mp hb).2
        intro x hx
        have hx' := List.all_eq_true.mp h2 x hx
        simp only [Bool.or_eq_true, beq_iff_eq] at hx'
        tauto
      have hnonempty : s.dropLast ≠ [] := by
        have h1 := (Bool.and_eq_true _ _ |>.mp hb).1
        intro h0
        rw [h0] at h1
        simp at h1
      have hlastEq : s.getLast? = some '\n' := by
        have h2 : s.getLastD ' ' = '\n' := by simpa using hlast
        rw [List.getLastD_eq_getLast?] at h2
        cases hgl : s.getLast? with
        | none => rw [hgl] at h2; simp at h2
        | some x => rw [hgl] at h2; simp at h2; rw [h2]
      exact hnl ⟨hnonempty, hAll, hlastEq⟩
    · rw [if_neg hlast] at hb
      have h2 := (Bool.and_eq_true _ _ |>.mp hb).2
      have h3 := List.all_eq_true.mp h2 c hc
      simp only [Bool.or_eq_true, beq_iff_eq] at h3
      exact hcbad (by tauto)

/-! ### Claim theorems -/

/-- Claim C1: on `sequences = ["ACGTACGTA"]` with `k = 3` and `threshold = 2`,
the pipeline produces exactly the intermediate values and output the spec
lists: counts `{ACG:2, CGT:2, GTA:2, TAC:1}`, filtered `{ACG:2, CGT:2, GTA:2}`,
the stated adjacency, and the single contig `"ACGTA"`. -/
theorem C1_concrete_scenario :
    index_kmers [['A','C','G','T','A','C','G','T','A']] 3 =
      [(['A','C','G'], 2), (['C','G','T'], 2), (['G','T','A'], 2), (['T','A','C'], 1)] ∧
    filter_kmers (index_kmers [['A','C','G','T','A','C','G','T','A']] 3) 2 =
      [(['A','C','G'], 2), (['C','G','T'], 2), (['G','T','A'], 2)] ∧
    predecessors_and_successors
        (filter_kmers (index_kmers [['A','C','G','T','A','C','G','T','A']] 3) 2) =
      [(['A','C','G'], ⟨[['C','G','T']], []⟩),
       (['C','G','T'], ⟨[['G','T','A']], [['A','C','G']]⟩),
       (['G','T','A'], ⟨[], [['C','G','T']]⟩)] ∧
    simple_path (predecessors_and_successors
        (filter_kmers (index_kmers [['A','C','G','T','A','C','G','T','A']] 3) 2)) =
      [['A','C','G','T','A']] := by
  refine ⟨by decide, by decide, by decide, by decide⟩

/-- With threshold `0` the integer comparison `abundance >= 0` holds for
every occurrence count, so the filter keeps every entry in order. -/
lemma filter_kmers_zero (kmers : KmerCounts) : filter_kmers kmers 0 = kmers := by
  unfold filter_kmers
  induction kmers with
  | nil => rfl
  | cons p rest ih => simp [List.filter_cons, ih, Int.natCast_nonneg]

/-- Claim C6: for every k-mer dict produced by `index_kmers` (its counts are
occurrence counts, all at least 1), `filter_kmers` with threshold `0` returns
a dict equal to its input: the same key-value entries in the same iteration
order. -/
theorem C6_filter_threshold_zero (sequences : List (List Char)) (k : Int) :
    filter_kmers (index_kmers sequences k) 0 = index_kmers sequences k :=
  filter_kmers_zero _

/-- Claim C9: the pipeline is deterministic — two runs on identical sequence
lists, identical `k` and identical threshold yield identical ordered contig
lists. -/
theorem C9_pipeline_deterministic (s₁ s₂ : List (List Char)) (k₁ k₂ : Int)
    (t₁ t₂ : Int) (hs : s₁ = s₂) (hk : k₁ = k₂) (ht : t₁ = t₂) :
    pipeline s₁ k₁ t₁ = pipeline s₂ k₂ t₂ := by
  subst hs; subst hk; subst ht; rfl

/-- Witness for C9 at a concrete input. -/
theorem C9_pipeline_deterministic_witness :
    pipeline [['A','C','G','T','A','C','G','T','A']] 3 2 =
      pipeline [['A','C','G','T','A','C','G','T','A']] 3 2 :=
  C9_pipeline_deterministic _ _ _ _ _ _ rfl rfl rfl

/-- Counterexample to claim C7 as stated: Python's `$` also matches just
before a newline that is the last character, so `re.match('^[ACGT]+$', s)` is
truthy on `"ACGT\n"`.  That sequence contains `'\n'`, a character outside
{A, C, G, T}, yet `index_kmers` indexes it whole — all of its windows are
counted, including the k-mer `"GT\n"` containing the newline — so the
sequence is not rejected at all, let alone rejected whole. -/
theorem C7_counterexample :
    ('\n' ∈ (['A','C','G','T','\n'] : List Char) ∧
      ¬('\n' = 'A' ∨ '\n' = 'C' ∨ '\n' = 'G' ∨ '\n' = 'T')) ∧
    index_kmers [['A','C','G','T','\n']] 3 =
      [(['A','C','G'], 1), (['C','G','T'], 1), (['G','T','\n'], 1)] ∧
    index_kmers [['A','C','G','T','\n']] 3 ≠ index_kmers [] 3 := by
  refine ⟨by decide, by decide, by decide⟩

/-- Claim C7 as amended: a sequence containing any character outside
A, C, G, T contributes no k-mers at all — `index_kmers` on a list with that
sequence anywhere in it equals `index_kmers` on the list with that sequence
removed, so the other sequences' counts are unaffected — unless the sequence
is of the one extra shape Python's `$` accepts: a nonempty all-ACGT body
followed by a single trailing newline (such a sequence is indexed whole,
newline included). -/
theorem C7_invalid_sequence_rejected_amended (before after : List (List Char))
    (s : List Char) (k : Int)
    (hbad : ∃ c ∈ s, ¬(c = 'A' ∨ c = 'C' ∨ c = 'G' ∨ c = 'T'))
    (hnl : ¬(s.dropLast ≠ [] ∧
      (∀ c ∈ s.dropLast, c = 'A' ∨ c = 'C' ∨ c = 'G' ∨ c = 'T') ∧
      s.getLast? = some '\n')) :
    index_kmers (before ++ s :: after) k = index_kmers (before ++ after) k := by
  rw [index_kmers_eq_foldl, index_kmers_eq_foldl, List.foldl_append, List.foldl_append,
    List.foldl_cons, validSeq_eq_false_of_bad hbad hnl]
  rfl

/-- Witness for the amended C7 at a concrete input: the sequence `"ANA"`
(containing `N`, and not an ACGT body with a trailing newline) contributes
nothing alongside a valid sequence. -/
theorem C7_invalid_sequence_rejected_amended_witness :
    index_kmers [['A','N','A'], ['A','A']] 1 = index_kmers [['A','A']] 1 :=
  C7_invalid_sequence_rejected_amended [] [['A','A']] ['A','N','A'] 1
    ⟨'N', by decide, by decide⟩ (by decide)

/-- The forward branch-resolution loop rephrased as a left fold. -/
lemma fwdLoopResolve_eq_foldl (build : TState → Kmer → TState × List Char) :
    ∀ (l : List Kmer) (st : TState) (best : List Char),
      fwdLoopResolve build st best l =
        l.foldl (fun acc s =>
          if s ∈ acc.1.visited then acc
          else
            let r := build acc.1 s
            (r.1, if acc.2.length < r.2.length then r.2 else acc.2)) (st, best) := by
  intro l
  induction l with
  | nil => intro st best; rfl
  | cons s rest ih =>
    intro st best
    simp only [fwdLoopResolve, List.foldl_cons]
    by_cases hs : s ∈ st.visited
    · simp only [hs, if_true, ih]
    · by_cases hlen : best.length < (build st s).2.length
      · simp only [hs, if_false, hlen, if_true, ih]
      · simp only [hs, if_false, hlen, if_true, ih]

/-- The backward branch-resolution loop rephrased as a left fold. -/
lemma bwdLoopResolve_eq_foldl (build : TState → Kmer → TState × List Char)
    (contig : List Char) :
    ∀ (l : List Kmer) (st : TState) (best : List Char),
      bwdLoopResolve build contig st best l =
        l.foldl (fun acc p =>
          if p ∈ acc.1.visited then acc
          else
            let r := build acc.1 p
            (r.1, if acc.2.length < (r.2 ++ contig).length then r.2 ++ contig else acc.2))
          (st, best) := by
  intro l
  induction l with
  | nil => intro st best; rfl
  | cons p rest ih =>
    intro st best
    simp only [bwdLoopResolve, List.foldl_cons]
    by_cases hp : p ∈ st.visited
    · simp only [hp, if_true, ih]
    · by_cases hlen : best.length < ((build st p).2 ++ contig).length
      · simp only [hp, if_false, hlen, if_true, ih]
      · simp only [hp, if_false, hlen, if_true, ih]

/-- Claim C4: after the forward extension loop, `build_contig` performs
forward branch resolution exactly when the successor list has more than one
entry, and in that case it walks the successors in order, recursively builds
each one that is unvisited at its turn, and replaces the contig wholesale by
the recursive result (no concatenation) exactly when that result is strictly
longer than the current contig; otherwise the contig is left unchanged.  The
code's resolution step coincides with the procedure the claim describes for
every recursive builder, state, contig and successor list. -/
theorem C4_forward_branch_resolution (build : TState → Kmer → TState × List Char)
    (st : TState) (contig : List Char) (successor : List Kmer) :
    forwardResolve build st contig successor =
      forwardResolveSpec build st contig successor := by
  unfold forwardResolve forwardResolveSpec
  by_cases h : 1 < successor.length
  · simp only [h, if_true, fwdLoopResolve_eq_foldl]
  · simp only [h, if_false]

/-- Counterexample to claim C3 as stated: on the index assembled from
`["ACGACG", "TACG"]` with `k = 3`, `threshold = 1`, the backward branch of
`build_contig("ACG")` runs with predecessor list `[GAC, TAC]` of which only
`TAC` is unvisited — one unvisited entry, not more than one — yet the code
performs the resolution (gated on the *entry* count) and prepends `TAC`'s
contig, producing `["TACACGAC"]`; the procedure the claim describes (gated on
the *unvisited* count) would instead produce `["ACGAC", "TAC"]`. -/
theorem C3_counterexample :
    simple_path (predecessors_and_successors
        (filter_kmers (index_kmers [['A','C','G','A','C','G'], ['T','A','C','G']] 3) 1)) =
      [['T','A','C','A','C','G','A','C']] ∧
    simplePathClaimC3 (predecessors_and_successors
        (filter_kmers (index_kmers [['A','C','G','A','C','G'], ['T','A','C','G']] 3) 1)) =
      [['A','C','G','A','C'], ['T','A','C']] ∧
    simple_path (predecessors_and_successors
        (filter_kmers (index_kmers [['A','C','G','A','C','G'], ['T','A','C','G']] 3) 1)) ≠
      simplePathClaimC3 (predecessors_and_successors
        (filter_kmers (index_kmers [['A','C','G','A','C','G'], ['T','A','C','G']] 3) 1)) := by
  refine ⟨by decide, by decide, by decide⟩

/-- Claim C3 as amended: after the backward extension loop, `build_contig`
performs backward branch resolution exactly when the predecessor list has
more than one *entry* (visited or not); in that case it walks the
predecessors in order, recursively builds each one that is unvisited at its
turn, prepends the result by string concatenation to the contig fixed at loop
entry, and keeps the longest resulting combination. -/
theorem C3_backward_branch_resolution_amended
    (build : TState → Kmer → TState × List Char)
    (st : TState) (contig : List Char) (pre : List Kmer) :
    backwardResolve build st contig pre =
      backwardResolveSpec build st contig pre := by
  unfold backwardResolve backwardResolveSpec
  by_cases h : 1 < pre.length
  · simp only [h, if_true, bwdLoopResolve_eq_foldl]
  · simp only [h, if_false]

/-- A Python slice with equal endpoints is empty. -/
lemma pySlice_self (s : List Char) (a : Int) : pySlice s a a = [] := by
  unfold pySlice
  exact List.drop_eq_nil_of_le (le_trans (List.length_take_le _ _) le_rfl)

/-- Counting the empty k-mer once more increments the single entry. -/
lemma addKmer_nil_singleton (c : Nat) : addKmer [([], c)] [] = [([], c + 1)] := rfl

/-- The inner fold of `indexSeq` at `k = 0`: every window is the empty slice,
so starting from the single empty-k-mer entry the count grows by one per
window position. -/
lemma foldl_addKmer_zero (s : List Char) :
    ∀ (l : List Nat) (c : Nat),
      l.foldl (fun acc (i : Nat) => addKmer acc (pySlice s (i : Int) ((i : Int) + 0)))
        [([], c)] = [([], c + l.length)] := by
  intro l
  induction l with
  | nil => intro c; simp
  | cons i rest ih =>
    intro c
    rw [List.foldl_cons]
    have h1 : pySlice s (i : Int) ((i : Int) + 0) = [] := by
      rw [Int.add_zero]; exact pySlice_self s i
    rw [h1, addKmer_nil_singleton, ih]
    simp only [List.length_cons, List.cons.injEq, Prod.mk.injEq, true_and, and_true]
    omega

/-- Indexing one sequence at `k = 0` from the single-entry dict adds its
`len + 1` window positions to the count. -/
lemma indexSeq_zero_singleton (s : List Char) (c : Nat) :
    indexSeq [([], c)] s 0 = [([], c + (s.length + 1))] := by
  unfold indexSeq
  have hn : Int.toNat ((s.length : Int) - 0 + 1) = s.length + 1 := by omega
  rw [hn, foldl_addKmer_zero, List.length_range]

/-- Indexing one sequence at `k = 0` from the empty dict counts the empty
k-mer once per window position. -/
lemma indexSeq_zero_nil (s : List Char) :
    indexSeq [] s 0 = [([], s.length + 1)] := by
  unfold indexSeq
  have hn : Int.toNat ((s.length : Int) - 0 + 1) = s.length + 1 := by omega
  rw [hn, List.range_succ_eq_map, List.foldl_cons]
  have h1 : pySlice s ((0 : Nat) : Int) (((0 : Nat) : Int) + 0) = [] := by
    rw [Int.add_zero]; exact pySlice_self s _
  rw [h1]
  have h2 : addKmer [] ([] : Kmer) = [(([] : Kmer), 1)] := rfl
  rw [h2, foldl_addKmer_zero, List.length_map, List.length_range]
  simp only [List.cons.injEq, Prod.mk.injEq, true_and, and_true]
  omega

/-- The outer fold of `index_kmers` at `k = 0` from the single-entry dict. -/
lemma foldl_indexSeq_zero (l : List (List Char)) :
    ∀ c : Nat,
      l.foldl (fun acc s => if validSeq s then indexSeq acc s 0 else acc) [([], c)] =
        [([], c + zeroWindows l)] := by
  induction l with
  | nil => intro c; simp [zeroWindows]
  | cons s rest ih =>
    intro c
    rw [List.foldl_cons]
    by_cases hv : validSeq s
    · rw [if_pos hv, indexSeq_zero_singleton, ih]
      have hz : zeroWindows (s :: rest) = (s.length + 1) + zeroWindows rest := by
        simp [zeroWindows, hv]
      rw [hz]
      simp only [List.cons.injEq, Prod.mk.injEq, true_and, and_true]
      omega
    · rw [if_neg hv]
      have hz : zeroWindows (s :: rest) = zeroWindows rest := by
        simp [zeroWindows, hv]
      rw [hz, ih]

/-- With `k = 0`, `index_kmers` returns the empty dict when no sequence
passes the regex check, and otherwise the single entry mapping the empty
k-mer to the total number of window positions over the accepted sequences. -/
lemma index_kmers_zero_eq (sequences : List (List Char)) :
    index_kmers sequences 0 =
      if zeroWindows sequences = 0 then [] else [([], zeroWindows sequences)] := by
  rw [index_kmers_eq_foldl]
  induction sequences with
  | nil => rfl
  | cons s rest ih =>
    rw [List.foldl_cons]
    by_cases hv : validSeq s
    · rw [if_pos hv, indexSeq_zero_nil, foldl_indexSeq_zero]
      have hz : zeroWindows (s :: rest) = (s.length + 1) + zeroWindows rest := by
        simp [zeroWindows, hv]
      rw [hz, if_neg (by omega)]
    · rw [if_neg hv]
      have hz : zeroWindows (s :: rest) = zeroWindows rest := by
        simp [zeroWindows, hv]
      rw [hz]
      exact ih

/-- Counterexample to claim C5 as stated: with `sequences = ["ACGT"]` and
`k = 0` the pipeline does complete, but `index_kmers` returns the nonempty
dict `{"": 5}` (the empty slice counted at the 5 window offsets), the
filtered set at threshold 2 is the same nonempty dict, and `simple_path`
returns the one-element contig list containing the empty string — not the
empty list the claim demands. -/
theorem C5_counterexample :
    index_kmers [['A','C','G','T']] 0 = [([], 5)] ∧
    filter_kmers (index_kmers [['A','C','G','T']] 0) 2 = [([], 5)] ∧
    simple_path (predecessors_and_successors
        (filter_kmers (index_kmers [['A','C','G','T']] 0) 2)) = [[]] ∧
    simple_path (predecessors_and_successors
        (filter_kmers (index_kmers [['A','C','G','T']] 0) 2)) ≠ [] := by
  refine ⟨by decide, by decide, by decide, by decide⟩

/-- Claim C5 as amended: for every list of sequences and every threshold,
with `k = 0` the pipeline degrades gracefully (every stage is total and
raises nothing), but to *trivial* rather than empty outputs: `index_kmers`
returns the empty dict when no sequence passes the alphabet check, and
otherwise exactly the single entry mapping the empty k-mer to the total
number of window positions (`len + 1` per accepted sequence); `simple_path`
over the resulting adjacency produces either the empty contig list or the
one-element list containing the empty contig. -/
theorem C5_degenerate_k_amended (sequences : List (List Char)) (threshold : Int) :
    (index_kmers sequences 0 =
      if zeroWindows sequences = 0 then [] else [([], zeroWindows sequences)]) ∧
    (simple_path (predecessors_and_successors
        (filter_kmers (index_kmers sequences 0) threshold)) = [] ∨
     simple_path (predecessors_and_successors
        (filter_kmers (index_kmers sequences 0) threshold)) = [[]]) := by
  have heq := index_kmers_zero_eq sequences
  refine ⟨heq, ?_⟩
  rw [heq]
  by_cases hz : zeroWindows sequences = 0
  · rw [if_pos hz]; left; rfl
  · rw [if_neg hz]
    by_cases ht : threshold ≤ (zeroWindows sequences : Int)
    · have hfilter : filter_kmers [([], zeroWindows sequences)] threshold =
          [([], zeroWindows sequences)] := by
        simp [filter_kmers, ht]
      rw [hfilter]
      have hadj : predecessors_and_successors [(([] : Kmer), zeroWindows sequences)] =
          [(([] : Kmer), ⟨[], []⟩)] := by
        simp [predecessors_and_successors, succCandidates, predCandidates, hasKey]
      rw [hadj]; right; decide
    · have hfilter : filter_kmers [([], zeroWindows sequences)] threshold = [] := by
        simp [filter_kmers, ht]
      rw [hfilter]; left; rfl

/-- `addKmer` only ever adds the counted k-mer as a key: any property of the
existing keys that the new k-mer also has is preserved. -/
lemma addKmer_keys {P : Kmer → Prop} {m : KmerCounts} (hm : ∀ p ∈ m, P p.1)
    {kmer : Kmer} (hkm : P kmer) : ∀ p ∈ addKmer m kmer, P p.1 := by
  unfold addKmer
  split
  · intro p hp
    rw [List.mem_map] at hp
    obtain ⟨q, hq, rfl⟩ := hp
    by_cases h : q.1 == kmer <;> simp only [h, if_true, if_false] <;> exact hm q hq
  · intro p hp
    rcases List.mem_append.mp hp with h | h
    · exact hm p h
    · rw [List.mem_singleton] at h
      subst h
      exact hkm

/-- For `1 ≤ k` and a window fitting inside the sequence, the Python slice
`s[i:i+k]` has length exactly `k`. -/
lemma pySlice_length {s : List Char} {i : Nat} {k : Int} (hk : 1 ≤ k)
    (hi : (i : Int) + k ≤ s.length) :
    (pySlice s (i : Int) ((i : Int) + k)).length = k.toNat := by
  unfold pySlice pySliceIdx
  rw [if_neg (by omega), if_neg (by omega), List.length_drop, List.length_take]
  omega

/-- The inner fold of `indexSeq` preserves "all keys have length `k`" as long
as every window index fits. -/
lemma foldl_addKmer_key_length {s : List Char} {k : Int} (hk : 1 ≤ k) :
    ∀ (l : List Nat) (m : KmerCounts), (∀ i ∈ l, (i : Int) + k ≤ s.length) →
      (∀ p ∈ m, p.1.length = k.toNat) →
      ∀ p ∈ l.foldl (fun acc (i : Nat) => addKmer acc (pySlice s (i : Int) ((i : Int) + k))) m,
        p.1.length = k.toNat := by
  intro l
  induction l with
  | nil => intro m _ hm; exact hm
  | cons i rest ih =>
    intro m hb hm
    rw [List.foldl_cons]
    exact ih _ (fun j hj => hb j (List.mem_cons_of_mem _ hj))
      (addKmer_keys (P := fun km => km.length = k.toNat) hm
        (pySlice_length hk (hb i (List.mem_cons_self _ _))))

/-- Every key of `indexSeq m s k` has length `k` (for `1 ≤ k`), provided the
keys of `m` already do. -/
lemma indexSeq_key_length {m : KmerCounts} {s : List Char} {k : Int} (hk : 1 ≤ k)
    (hm : ∀ p ∈ m, p.1.length = k.toNat) :
    ∀ p ∈ indexSeq m s k, p.1.length = k.toNat := by
  unfold indexSeq
  refine foldl_addKmer_key_length hk _ m ?_ hm
  intro i hi
  have := List.mem_range.mp hi
  omega

/-- Every key of `index_kmers sequences k` has length `k`, for `1 ≤ k`. -/
lemma index_kmers_key_length {k : Int} (hk : 1 ≤ k) (sequences : List (List Char)) :
    ∀ p ∈ index_kmers sequences k, p.1.length = k.toNat := by
  unfold index_kmers
  suffices h : ∀ (l : List (List Char)) (m : KmerCounts),
      (∀ p ∈ m, p.1.length = k.toNat) →
      ∀ p ∈ l.foldl (fun acc s => if validSeq s then indexSeq acc s k else acc) m,
        p.1.length = k.toNat by
    exact h sequences [] (by simp)
  intro l
  induction l with
  | nil => intro m hm; exact hm
  | cons s rest ih =>
    intro m hm
    rw [List.foldl_cons]
    split
    · exact ih _ (indexSeq_key_length hk hm)
    · exact ih _ hm

/-- Claim C8: the adjacency dict built from a filter of `index_kmers` (with a
positive `k`) has exactly the keys of the filtered dict, in the same order,
and every one of those keys has length exactly `k` — no graph node exists
that did not pass the abundance filter. -/
theorem C8_adjacency_keys (sequences : List (List Char)) (k : Int) (threshold : Int)
    (hk : 1 ≤ k) :
    (predecessors_and_successors
        (filter_kmers (index_kmers sequences k) threshold)).map Prod.fst =
      (filter_kmers (index_kmers sequences k) threshold).map Prod.fst ∧
    ∀ w ∈ (predecessors_and_successors
        (filter_kmers (index_kmers sequences k) threshold)).map Prod.fst,
      w.length = k.toNat := by
  constructor
  · rw [predecessors_and_successors, List.map_map]
    rfl
  · intro w hw
    rw [predecessors_and_successors, List.map_map] at hw
    have hw' : w ∈ (filter_kmers (index_kmers sequences k) threshold).map Prod.fst := hw
    rw [List.mem_map] at hw'
    obtain ⟨p, hp, rfl⟩ := hw'
    exact index_kmers_key_length hk sequences p (List.mem_of_mem_filter hp)

/-- Witness for C8 at a concrete input (`k = 2`). -/
theorem C8_adjacency_keys_witness :
    (predecessors_and_successors
        (filter_kmers (index_kmers [['A','C','G']] 2) 1)).map Prod.fst =
      (filter_kmers (index_kmers [['A','C','G']] 2) 1).map Prod.fst ∧
    ∀ w ∈ (predecessors_and_successors
        (filter_kmers (index_kmers [['A','C','G']] 2) 1)).map Prod.fst,
      w.length = (2 : Int).toNat :=
  C8_adjacency_keys [['A','C','G']] 2 1 (by decide)

/-- The adjacency entry `predecessors_and_successors` computes for one key. -/
def adjFor (filtered : KmerCounts) (u : Kmer) : AdjEntry :=
  { successors := (succCandidates u).filter (fun i => hasKey filtered i)
    predecessors := (predCandidates u).filter (fun i => hasKey filtered i) }

/-- `predecessors_and_successors` rephrased through `adjFor`. -/
lemma p_and_s_eq (filtered : KmerCounts) :
    predecessors_and_successors filtered =
      filtered.map (fun p => (p.1, adjFor filtered p.1)) := rfl

/-- Finding a present key in a key-preserving map image yields the mapped
value for that key. -/
lemma find?_map_keyed {α β : Type} (g : Kmer → β) (w : Kmer) :
    ∀ l : List (Kmer × α), l.any (fun p => p.1 == w) = true →
      (l.map (fun p => (p.1, g p.1))).find? (fun q => q.1 == w) = some (w, g w) := by
  intro l
  induction l with
  | nil => intro h; simp at h
  | cons p rest ih =>
    intro h
    rw [List.map_cons]
    by_cases hp : (p.1 == w) = true
    · have hpe : p.1 = w := by simpa using hp
      subst hpe
      simp
    · rw [List.find?_cons_of_neg (p := fun (q : Kmer × β) => q.1 == w) _ (by simpa using hp)]
      refine ih ?_
      rcases List.any_eq_true.mp h with ⟨x, hx, hxw⟩
      rcases List.mem_cons.mp hx with rfl | hx'
      · exact absurd hxw hp
      · exact List.any_eq_true.mpr ⟨x, hx', hxw⟩

/-- Looking a key up in the adjacency dict returns exactly the entry computed
for it. -/
lemma lookupAdj_p_and_s {filtered : KmerCounts} {w : Kmer}
    (hw : hasKey filtered w = true) :
    lookupAdj (predecessors_and_successors filtered) w = adjFor filtered w := by
  rw [p_and_s_eq]
  unfold lookupAdj
  rw [find?_map_keyed (adjFor filtered) w filtered hw]

/-- Claim C2: for every key `w` (length `k`, alphabet A/C/G/T) of the filtered
dict, the successor list computed by `predecessors_and_successors` contains
`s` iff `s` is a key and `s[0:k-1] = w[1:k]`, the predecessor list contains
`p` iff `p` is a key and `p[1:k] = w[0:k-1]`, and each list presents its
members in the fixed candidate order (appending, resp. prepending, A, C, G, T
in that order). -/
theorem C2_adjacency_contract (filtered : KmerCounts) (k : Nat) (w : Kmer)
    (hk : 1 ≤ k)
    (hlen : ∀ p ∈ filtered, p.1.length = k)
    (hchars : ∀ p ∈ filtered, ∀ c ∈ p.1, c = 'A' ∨ c = 'C' ∨ c = 'G' ∨ c = 'T')
    (hw : hasKey filtered w = true) :
    (∀ s, s ∈ (lookupAdj (predecessors_and_successors filtered) w).successors ↔
      hasKey filtered s = true ∧ s.take (k - 1) = w.drop 1) ∧
    (∀ p, p ∈ (lookupAdj (predecessors_and_successors filtered) w).predecessors ↔
      hasKey filtered p = true ∧ p.drop 1 = w.take (k - 1)) ∧
    (lookupAdj (predecessors_and_successors filtered) w).successors.Sublist
      (succCandidates w) ∧
    (lookupAdj (predecessors_and_successors filtered) w).predecessors.Sublist
      (predCandidates w) := by
  rw [lookupAdj_p_and_s hw]
  obtain ⟨x, hxmem, hxw⟩ := List.any_eq_true.mp hw
  have hwlen : w.length = k := by
    have : x.1 = w := by simpa using hxw
    exact this ▸ hlen x hxmem
  have hdropLast : w.dropLast = w.take (k - 1) := by
    rw [List.dropLast_eq_take, hwlen]
  refine ⟨?_, ?_, List.filter_sublist _, List.filter_sublist _⟩
  · intro s
    rw [show (adjFor filtered w).successors =
        (succCandidates w).filter (fun i => hasKey filtered i) from rfl, List.mem_filter]
    constructor
    · rintro ⟨hcand, hkey⟩
      refine ⟨hkey, ?_⟩
      have hlen1 : (w.drop 1).length = k - 1 := by rw [List.length_drop, hwlen]
      simp only [succCandidates, List.mem_cons, List.not_mem_nil, or_false] at hcand
      rcases hcand with rfl | rfl | rfl | rfl <;> exact List.take_left' hlen1
    · rintro ⟨hkey, htake⟩
      refine ⟨?_, hkey⟩
      obtain ⟨y, hymem, hyw⟩ := List.any_eq_true.mp hkey
      have hye : y.1 = s := by simpa using hyw
      have hslen : s.length = k := hye ▸ hlen y hymem
      have hdlen : (s.drop (k - 1)).length = 1 := by
        rw [List.length_drop, hslen]; omega
      obtain ⟨c, hc⟩ := List.length_eq_one.mp hdlen
      have hcs : c ∈ s := (List.drop_sublist (k - 1) s).subset (hc ▸ List.mem_singleton_self c)
      have hs2 : s = w.drop 1 ++ [c] := by
        conv_lhs => rw [← List.take_append_drop (k - 1) s]
        rw [htake, hc]
      have hcACGT := hchars y hymem c (hye ▸ hcs)
      rcases hcACGT with rfl | rfl | rfl | rfl <;> simp [succCandidates, hs2]
  · intro p
    rw [show (adjFor filtered w).predecessors =
        (predCandidates w).filter (fun i => hasKey filtered i) from rfl, List.mem_filter]
    constructor
    · rintro ⟨hcand, hkey⟩
      refine ⟨hkey, ?_⟩
      simp only [predCandidates, List.mem_cons, List.not_mem_nil, or_false] at hcand
      rcases hcand with rfl | rfl | rfl | rfl <;> simp [hdropLast]
    · rintro ⟨hkey, hdrop⟩
      refine ⟨?_, hkey⟩
      obtain ⟨y, hymem, hyw⟩ := List.any_eq_true.mp hkey
      have hye : y.1 = p := by simpa using hyw
      have hplen : p.length = k := hye ▸ hlen y hymem
      obtain ⟨c, t, rfl⟩ : ∃ c t, p = c :: t := by
        cases p with
        | nil => exfalso; rw [List.length_nil] at hplen; omega
        | cons c t => exact ⟨c, t, rfl⟩
      have ht : t = w.dropLast := by
        rw [hdropLast, ← hdrop]
        simp
      have hcACGT := hchars y hymem c (hye ▸ List.mem_cons_self c t)
      rcases hcACGT with rfl | rfl | rfl | rfl <;> simp [predCandidates, ht]

/-- Witness for C2 at a concrete filtered dict (`k = 2`, key `"AC"`). -/
theorem C2_adjacency_contract_witness :
    (∀ s, s ∈ (lookupAdj (predecessors_and_successors
        [(['A','C'], 2), (['C','G'], 2)]) ['A','C']).successors ↔
      hasKey [(['A','C'], 2), (['C','G'], 2)] s = true ∧
        s.take (2 - 1) = (['A','C'] : List Char).drop 1) ∧
    (∀ p, p ∈ (lookupAdj (predecessors_and_successors
        [(['A','C'], 2), (['C','G'], 2)]) ['A','C']).predecessors ↔
      hasKey [(['A','C'], 2), (['C','G'], 2)] p = true ∧
        p.drop 1 = (['A','C'] : List Char).take (2 - 1)) ∧
    (lookupAdj (predecessors_and_successors
        [(['A','C'], 2), (['C','G'], 2)]) ['A','C']).successors.Sublist
      (succCandidates ['A','C']) ∧
    (lookupAdj (predecessors_and_successors
        [(['A','C'], 2), (['C','G'], 2)]) ['A','C']).predecessors.Sublist
      (predCandidates ['A','C']) :=
  C2_adjacency_contract [(['A','C'], 2), (['C','G'], 2)] 2 ['A','C']
    (by decide) (by decide) (by decide) (by decide)

/-! ### The memo invariant of `simple_path` (claim C10) -/

/-- The invariant relating the two components of the traversal state: every
k-mer with a memoised contig has been marked visited. -/
def memoInv (st : TState) : Prop :=
  ∀ p ∈ st.contigDict, p.1 ∈ st.visited

/-- Adding to the visited set keeps the previous members. -/
lemma subset_addVisited (v : List Kmer) (w : Kmer) : v ⊆ addVisited v w := by
  unfold addVisited
  split
  · exact fun x hx => hx
  · exact fun x hx => List.mem_append_left _ hx

/-- The added element is a member of the grown visited set. -/
lemma mem_addVisited_self (v : List Kmer) (w : Kmer) : w ∈ addVisited v w := by
  unfold addVisited
  split
  · assumption
  · exact List.mem_append_right _ (List.mem_singleton_self w)

/-- Under the invariant, looking an unvisited k-mer up in the memo fails:
the memo-hit branch of `build_contig` tests false. -/
lemma find?_none_of_memoInv {st : TState} {w : Kmer} (h : memoInv st)
    (hw : w ∉ st.visited) :
    st.contigDict.find? (fun p => p.1 == w) = none := by
  rw [List.find?_eq_none]
  intro x hx hxw
  have hxe : x.1 = w := by simpa using hxw
  exact hw (hxe ▸ h x hx)

/-- Storing a contig for a visited key preserves "all memo keys are in `V`". -/
lemma dictSet_keys_mem {d : List (Kmer × List Char)} {V : List Kmer}
    (hd : ∀ p ∈ d, p.1 ∈ V) {key : Kmer} (hkey : key ∈ V) (val : List Char) :
    ∀ p ∈ dictSet d key val, p.1 ∈ V := by
  unfold dictSet
  split
  · intro p hp
    rw [List.mem_map] at hp
    obtain ⟨q, hq, rfl⟩ := hp
    by_cases h : q.1 == key <;> simp only [h, if_true, if_false]
    · exact hkey
    · exact hd q hq
  · intro p hp
    rcases List.mem_append.mp hp with h | h
    · exact hd p h
    · rw [List.mem_singleton] at h
      subst h
      exact hkey

/-- The forward extension loop only grows the visited set. -/
lemma forwardLoop_visited_subset (idx : Index) :
    ∀ (fuel : Nat) (visited : List Kmer) (contig : List Char) (successor : List Kmer),
      visited ⊆ (forwardLoop idx fuel visited contig successor).1 := by
  intro fuel
  induction fuel with
  | zero => intro visited contig successor; exact fun x hx => hx
  | succ fuel ih =>
    intro visited contig successor
    match successor with
    | [] => exact fun x hx => hx
    | [s] =>
      rw [forwardLoop]
      by_cases hs : s ∈ visited
      · rw [if_pos hs]; exact fun x hx => hx
      · rw [if_neg hs]
        exact fun x hx => ih _ _ _ (subset_addVisited visited s hx)
    | s :: s' :: rest => exact fun x hx => hx

/-- The backward extension loop only grows the visited set. -/
lemma backwardLoop_visited_subset (idx : Index) :
    ∀ (fuel : Nat) (visited : List Kmer) (contig : List Char) (pre : List Kmer),
      visited ⊆ (backwardLoop idx fuel visited contig pre).1 := by
  intro fuel
  induction fuel with
  | zero => intro visited contig pre; exact fun x hx => hx
  | succ fuel ih =>
    intro visited contig pre
    match pre with
    | [] => exact fun x hx => hx
    | [p] =>
      rw [backwardLoop]
      by_cases hp : p ∈ visited
      · rw [if_pos hp]; exact fun x hx => hx
      · rw [if_neg hp]
        exact fun x hx => ih _ _ _ (subset_addVisited visited p hx)
    | p :: p' :: rest => exact fun x hx => hx

/-- Congruence of the forward branch-resolution loop: two builders that agree
(and preserve the invariant and grow the visited set) on every invariant
state and unvisited node give the same loop result, with the invariant
preserved and the visited set grown. -/
lemma fwdLoopResolve_congr (b₁ b₂ : TState → Kmer → TState × List Char)
    (H : ∀ st v, memoInv st → v ∉ st.visited →
      b₁ st v = b₂ st v ∧ memoInv (b₁ st v).1 ∧ st.visited ⊆ (b₁ st v).1.visited) :
    ∀ (l : List Kmer) (st : TState) (best : List Char), memoInv st →
      fwdLoopResolve b₁ st best l = fwdLoopResolve b₂ st best l ∧
      memoInv (fwdLoopResolve b₁ st best l).1 ∧
      st.visited ⊆ (fwdLoopResolve b₁ st best l).1.visited := by
  intro l
  induction l with
  | nil => intro st best h; exact ⟨rfl, h, fun x hx => hx⟩
  | cons s rest ih =>
    intro st best h
    by_cases hs : s ∈ st.visited
    · simp only [fwdLoopResolve, if_pos hs]
      exact ih st best h
    · obtain ⟨heq, hInv1, hsub1⟩ := H st s h hs
      simp only [fwdLoopResolve, if_neg hs, ← heq]
      by_cases hlen : best.length < (b₁ st s).2.length
      · simp only [if_pos hlen]
        obtain ⟨e, i, sub⟩ := ih (b₁ st s).1 (b₁ st s).2 hInv1
        exact ⟨e, i, fun x hx => sub (hsub1 hx)⟩
      · simp only [if_neg hlen]
        obtain ⟨e, i, sub⟩ := ih (b₁ st s).1 best hInv1
        exact ⟨e, i, fun x hx => sub (hsub1 hx)⟩

/-- Congruence of the backward branch-resolution loop, as for the forward one. -/
lemma bwdLoopResolve_congr (b₁ b₂ : TState → Kmer → TState × List Char)
    (contig : List Char)
    (H : ∀ st v, memoInv st → v ∉ st.visited →
      b₁ st v = b₂ st v ∧ memoInv (b₁ st v).1 ∧ st.visited ⊆ (b₁ st v).1.visited) :
    ∀ (l : List Kmer) (st : TState) (best : List Char), memoInv st →
      bwdLoopResolve b₁ contig st best l = bwdLoopResolve b₂ contig st best l ∧
      memoInv (bwdLoopResolve b₁ contig st best l).1 ∧
      st.visited ⊆ (bwdLoopResolve b₁ contig st best l).1.visited := by
  intro l
  induction l with
  | nil => intro st best h; exact ⟨rfl, h, fun x hx => hx⟩
  | cons p rest ih =>
    intro st best h
    by_cases hp : p ∈ st.visited
    · simp only [bwdLoopResolve, if_pos hp]
      exact ih st best h
    · obtain ⟨heq, hInv1, hsub1⟩ := H st p h hp
      simp only [bwdLoopResolve, if_neg hp, ← heq]
      by_cases hlen : best.length < ((b₁ st p).2 ++ contig).length
      · simp only [if_pos hlen]
        obtain ⟨e, i, sub⟩ := ih (b₁ st p).1 ((b₁ st p).2 ++ contig) hInv1
        exact ⟨e, i, fun x hx => sub (hsub1 hx)⟩
      · simp only [if_neg hlen]
        obtain ⟨e, i, sub⟩ := ih (b₁ st p).1 best hInv1
        exact ⟨e, i, fun x hx => sub (hsub1 hx)⟩

/-- Congruence of forward branch resolution. -/
lemma forwardResolve_congr (b₁ b₂ : TState → Kmer → TState × List Char)
    (H : ∀ st v, memoInv st → v ∉ st.visited →
      b₁ st v = b₂ st v ∧ memoInv (b₁ st v).1 ∧ st.visited ⊆ (b₁ st v).1.visited)
    (st : TState) (contig : List Char) (successor : List Kmer) (h : memoInv st) :
    forwardResolve b₁ st contig successor = forwardResolve b₂ st contig successor ∧
    memoInv (forwardResolve b₁ st contig successor).1 ∧
    st.visited ⊆ (forwardResolve b₁ st contig successor).1.visited := by
  unfold forwardResolve
  split
  · exact fwdLoopResolve_congr b₁ b₂ H successor st contig h
  · exact ⟨rfl, h, fun x hx => hx⟩

/-- Congruence of backward branch resolution. -/
lemma backwardResolve_congr (b₁ b₂ : TState → Kmer → TState × List Char)
    (H : ∀ st v, memoInv st → v ∉ st.visited →
      b₁ st v = b₂ st v ∧ memoInv (b₁ st v).1 ∧ st.visited ⊆ (b₁ st v).1.visited)
    (st : TState) (contig : List Char) (pre : List Kmer) (h : memoInv st) :
    backwardResolve b₁ st contig pre = backwardResolve b₂ st contig pre ∧
    memoInv (backwardResolve b₁ st contig pre).1 ∧
    st.visited ⊆ (backwardResolve b₁ st contig pre).1.visited := by
  unfold backwardResolve
  split
  · exact bwdLoopResolve_congr b₁ b₂ contig H pre st contig h
  · exact ⟨rfl, h, fun x hx => hx⟩

/-- Congruence of `build_contig`'s body: two builders that agree on invariant
states and unvisited nodes give the same body result, with the invariant
preserved and the visited set grown. -/
lemma buildBody_congr (idx : Index) (lf : Nat)
    (b₁ b₂ : TState → Kmer → TState × List Char)
    (H : ∀ st v, memoInv st → v ∉ st.visited →
      b₁ st v = b₂ st v ∧ memoInv (b₁ st v).1 ∧ st.visited ⊆ (b₁ st v).1.visited)
    (st : TState) (w : Kmer) (h : memoInv st) :
    buildBody idx lf b₁ st w = buildBody idx lf b₂ st w ∧
    memoInv (buildBody idx lf b₁ st w).1 ∧
    st.visited ⊆ (buildBody idx lf b₁ st w).1.visited := by
  simp only [buildBody]
  have hsubFL := forwardLoop_visited_subset idx lf (addVisited st.visited w) w
    (lookupAdj idx w).successors
  generalize hFL : forwardLoop idx lf (addVisited st.visited w) w
    (lookupAdj idx w).successors = fl
  rw [hFL] at hsubFL
  have hInv1 : memoInv ⟨st.contigDict, fl.1⟩ :=
    fun p hp => hsubFL (subset_addVisited st.visited w (h p hp))
  obtain ⟨hfr_eq, hfr_inv, hfr_sub⟩ :=
    forwardResolve_congr b₁ b₂ H ⟨st.contigDict, fl.1⟩ fl.2.1 fl.2.2 hInv1
  rw [← hfr_eq]
  generalize hFR : forwardResolve b₁ ⟨st.contigDict, fl.1⟩ fl.2.1 fl.2.2 = fr
  rw [hFR] at hfr_inv hfr_sub
  have hsubBL := backwardLoop_visited_subset idx lf fr.1.visited fr.2
    (lookupAdj idx w).predecessors
  generalize hBL : backwardLoop idx lf fr.1.visited fr.2
    (lookupAdj idx w).predecessors = bl
  rw [hBL] at hsubBL
  have hInv2 : memoInv ⟨fr.1.contigDict, bl.1⟩ :=
    fun p hp => hsubBL (hfr_inv p hp)
  obtain ⟨hbr_eq, hbr_inv, hbr_sub⟩ :=
    backwardResolve_congr b₁ b₂ H ⟨fr.1.contigDict, bl.1⟩ bl.2.1 bl.2.2 hInv2
  rw [← hbr_eq]
  generalize hBR : backwardResolve b₁ ⟨fr.1.contigDict, bl.1⟩ bl.2.1 bl.2.2 = br
  rw [hBR] at hbr_inv hbr_sub
  have hw_mem : w ∈ br.1.visited :=
    hbr_sub (hsubBL (hfr_sub (hsubFL (mem_addVisited_self st.visited w))))
  refine ⟨rfl, ?_, ?_⟩
  · exact dictSet_keys_mem hbr_inv hw_mem br.2
  · exact fun x hx =>
      hbr_sub (hsubBL (hfr_sub (hsubFL (subset_addVisited st.visited w hx))))

/-- The memoised `build_contig` and the memo-free variant agree on every
invariant state and unvisited start node; the call preserves the invariant
and grows the visited set. -/
lemma buildContig_eq_noMemo (idx : Index) (lf : Nat) :
    ∀ (fuel : Nat) (st : TState) (w : Kmer), memoInv st → w ∉ st.visited →
      buildContig idx lf fuel st w = buildContigNoMemo idx lf fuel st w ∧
      memoInv (buildContig idx lf fuel st w).1 ∧
      st.visited ⊆ (buildContig idx lf fuel st w).1.visited := by
  intro fuel
  induction fuel with
  | zero => intro st w h hw; exact ⟨rfl, h, fun x hx => hx⟩
  | succ fuel ih =>
    intro st w h hw
    have hnone := find?_none_of_memoInv h hw
    simp only [buildContig, buildContigNoMemo, hnone]
    exact buildBody_congr idx lf _ _ ih st w h

/-- Claim C10: throughout one `simple_path` run every memoised key is already
visited and `build_contig` is only ever invoked on unvisited k-mers, so the
memo-hit branch at the top of `build_contig` is dead code: running
`simple_path` with that branch deleted produces the same contig list on every
index. -/
theorem C10_memo_branch_dead (idx : Index) :
    simple_path idx = simplePathNoMemo idx := by
  unfold simple_path simplePathNoMemo
  suffices h : ∀ (l : List (Kmer × AdjEntry)) (acc : TState × List (List Char)),
      memoInv acc.1 →
      l.foldl (fun (acc : TState × List (List Char)) p =>
          if p.1 ∈ acc.1.visited then acc
          else
            let r := buildContig idx (idx.length + 2) (idx.length + 2) acc.1 p.1
            (r.1, acc.2 ++ [r.2])) acc =
        l.foldl (fun (acc : TState × List (List Char)) p =>
          if p.1 ∈ acc.1.visited then acc
          else
            let r := buildContigNoMemo idx (idx.length + 2) (idx.length + 2) acc.1 p.1
            (r.1, acc.2 ++ [r.2])) acc by
    rw [h idx (⟨[], []⟩, []) (fun p hp => absurd hp (List.not_mem_nil p))]
  intro l
  induction l with
  | nil => intro acc _; rfl
  | cons p rest ih =>
    intro acc hacc
    rw [List.foldl_cons, List.foldl_cons]
    by_cases hp : p.1 ∈ acc.1.visited
    · rw [if_pos hp, if_pos hp]
      exact ih acc hacc
    · rw [if_neg hp, if_neg hp]
      obtain ⟨heq, hinv, _⟩ :=
        buildContig_eq_noMemo idx (idx.length + 2) (idx.length + 2) acc.1 p.1 hacc hp
      rw [← heq]
      exact ih _ hinv

end Assembly
